import Mathlib

/-!
Shallow embedding of the XLIFF repair core
(`src/services/repairService.ts`, `src/services/geminiService.ts`,
`src/types.ts`).  Strings are modelled as `List Char`; each JavaScript
regex substitution is transcribed as a character scanner with the same
match/replace semantics.  The browser's `DOMParser` is platform code,
not part of the repository: it is modelled as an oracle parameter
`domParse : List Char → Option (Option String)` where `none` means the
parse produced no `parsererror` node, and `some m` means a
`parsererror` node was present with `textContent` `m` (`none` / empty
string being the falsy cases of `errorNode.textContent`).
-/

namespace XliffFixer

/-- Character class of the regex `[\x00-\x08\x0B\x0C\x0E-\x1F]`
(repairService.ts line 28): low control characters except Tab 0x09,
LF 0x0A and CR 0x0D. -/
def illegalChar (c : Char) : Bool :=
  c.toNat ≤ 8 || c.toNat == 11 || c.toNat == 12 ||
    (14 ≤ c.toNat && c.toNat ≤ 31)

/-- Character class of the JavaScript regex escape `\s` (used in
`/<(\s)/g`, repairService.ts line 44): Tab, LF, VT, FF, CR, space,
NBSP, U+1680, U+2000–U+200A, LS, PS, U+202F, U+205F, U+3000, U+FEFF. -/
def jsWs (c : Char) : Bool :=
  let n := c.toNat
  (9 ≤ n && n ≤ 13) || n == 32 || n == 160 || n == 0x1680 ||
    (0x2000 ≤ n && n ≤ 0x200A) || n == 0x2028 || n == 0x2029 ||
    n == 0x202F || n == 0x205F || n == 0x3000 || n == 0xFEFF

/-- Character class `[a-zA-Z0-9-_]` of the truncated-closing-tag regex
(repairService.ts line 51): `a`–`z` (97–122), `A`–`Z` (65–90),
`0`–`9` (48–57), `-` (45) and `_` (95). -/
def nameChar (c : Char) : Bool :=
  (97 ≤ c.toNat && c.toNat ≤ 122) || (65 ≤ c.toNat && c.toNat ≤ 90) ||
    (48 ≤ c.toNat && c.toNat ≤ 57) || c.toNat == 45 || c.toNat == 95

/-- Digit class `\d` of the numeric character reference alternatives. -/
def isDigitC (c : Char) : Bool :=
  '0' ≤ c && c ≤ '9'

/-- Hex-digit class `[a-f\d]` under the regex `i` flag: `a`–`f`,
`A`–`F`, or a decimal digit. -/
def isHexC (c : Char) : Bool :=
  isDigitC c || ('a' ≤ c.toLower && c.toLower ≤ 'f')

/-- Case-insensitive single-character match, as performed by a regex
with the `i` flag on an ASCII pattern character `d` (`d` is written in
lower case). -/
def lowEq (c d : Char) : Bool :=
  c.toLower == d

/-! ### The lookahead of `/&(?!(?:amp|lt|gt|apos|quot|#\d+|#x[a-f\d]+);)/gi`
(repairService.ts line 35).  Each alternative of the group, followed by
the shared `;`, transcribed with the `i` flag applied throughout. -/

/-- Alternative `amp;`. -/
def ampTail : List Char → Bool
  | c1 :: c2 :: c3 :: c4 :: _ =>
      lowEq c1 'a' && lowEq c2 'm' && lowEq c3 'p' && lowEq c4 ';'
  | _ => false

/-- Alternative `lt;`. -/
def ltTail : List Char → Bool
  | c1 :: c2 :: c3 :: _ => lowEq c1 'l' && lowEq c2 't' && lowEq c3 ';'
  | _ => false

/-- Alternative `gt;`. -/
def gtTail : List Char → Bool
  | c1 :: c2 :: c3 :: _ => lowEq c1 'g' && lowEq c2 't' && lowEq c3 ';'
  | _ => false

/-- Alternative `apos;`. -/
def aposTail : List Char → Bool
  | c1 :: c2 :: c3 :: c4 :: c5 :: _ =>
      lowEq c1 'a' && lowEq c2 'p' && lowEq c3 'o' && lowEq c4 's' &&
        lowEq c5 ';'
  | _ => false

/-- Alternative `quot;`. -/
def quotTail : List Char → Bool
  | c1 :: c2 :: c3 :: c4 :: c5 :: _ =>
      lowEq c1 'q' && lowEq c2 'u' && lowEq c3 'o' && lowEq c4 't' &&
        lowEq c5 ';'
  | _ => false

/-- Continuation of `\d+;` after at least one digit has been consumed:
zero or more further digits, then `;`.  Greedy matching with
backtracking inside a lookahead is equivalent to this deterministic
scan because `;` is not a digit. -/
def moreDigitsSemi : List Char → Bool
  | [] => false
  | c :: r => if isDigitC c then moreDigitsSemi r else lowEq c ';'

/-- Alternative body `\d+;`: one or more digits then `;`. -/
def digitsSemi : List Char → Bool
  | [] => false
  | c :: r => isDigitC c && moreDigitsSemi r

/-- Continuation of `[a-f\d]+;` after at least one hex digit. -/
def moreHexSemi : List Char → Bool
  | [] => false
  | c :: r => if isHexC c then moreHexSemi r else lowEq c ';'

/-- Alternative body `[a-f\d]+;`: one or more hex digits then `;`. -/
def hexSemi : List Char → Bool
  | [] => false
  | c :: r => isHexC c && moreHexSemi r

/-- Alternatives `#\d+;` and `#x[a-f\d]+;`. -/
def numTail : List Char → Bool
  | c :: r =>
      lowEq c '#' &&
        (digitsSemi r ||
          (match r with
           | x :: r2 => lowEq x 'x' && hexSemi r2
           | [] => false))
  | [] => false

/-- The full (negated) lookahead of the unescaped-ampersand regex:
`true` iff the text right after a `&` starts with a recognized entity
tail, so the `&` is left untouched. -/
def entityAhead (l : List Char) : Bool :=
  ampTail l || ltTail l || gtTail l || aposTail l || quotTail l || numTail l

/-! ### The four fixes of `heuristicRepair` (repairService.ts lines 26–54). -/

/-- Fix 1 (lines 28–31): `content.replace(/[\x00-\x08\x0B\x0C\x0E-\x1F]/g, "")`
removes every illegal control character. -/
def stripIllegal (l : List Char) : List Char :=
  l.filter (fun c => !illegalChar c)

/-- Fix 2 (lines 35–38):
`content.replace(/&(?!(?:amp|lt|gt|apos|quot|#\d+|#x[a-f\d]+);)/gi, "&amp;")`.
The match is the single character `&` (the lookahead is zero-width), so
the scan replaces each `&` whose tail is not a recognized entity tail
by `&amp;` and continues immediately after the `&`. -/
def escapeAmps : List Char → List Char
  | [] => []
  | c :: r =>
      if c == '&' && !entityAhead r then
        '&' :: 'a' :: 'm' :: 'p' :: ';' :: escapeAmps r
      else
        c :: escapeAmps r

/-- Fix 3 (lines 44–47): `content.replace(/<(\s)/g, "&lt;$1")`.  A match
consumes `<` plus the whitespace character, which is re-emitted after
`&lt;`; scanning resumes after the consumed pair. -/
def escapeLt : List Char → List Char
  | [] => []
  | [c] => [c]
  | c1 :: c2 :: r =>
      if c1 == '<' && jsWs c2 then
        '&' :: 'l' :: 't' :: ';' :: c2 :: escapeLt r
      else
        c1 :: escapeLt (c2 :: r)

/-- Whole-list form of the truncated-closing-tag pattern: the list is
exactly `</` followed by one or more name characters. -/
def isPartialClose : List Char → Bool
  | a :: b :: r => a == '<' && b == '/' && !r.isEmpty && r.all nameChar
  | _ => false

/-- Match condition of `/<\/([a-zA-Z0-9-_]+)$/` (line 51): some suffix
of the text, extending to the very end, is `</` followed by one or more
name characters. -/
def endsPartial : List Char → Bool
  | [] => false
  | c :: r => isPartialClose (c :: r) || endsPartial r

/-- Fix 4 (lines 51–54): `content.replace(/<\/([a-zA-Z0-9-_]+)$/, "</$1>")`.
Any match of the end-anchored pattern runs to the end of the string and
is replaced by itself followed by `>`, so the replacement appends a
single `>`. -/
def fixTruncatedTag (l : List Char) : List Char :=
  if endsPartial l then l ++ ['>'] else l

/-! ### The `regex.test(content)` guards of the four fixes. -/

/-- Guard of fix 1: `illegalCharRegex.test(content)`. -/
def hasIllegal (l : List Char) : Bool :=
  l.any illegalChar

/-- Guard of fix 2: `unescapedAmpRegex.test(content)` — some `&` is not
followed by a recognized entity tail. -/
def hasBareAmp : List Char → Bool
  | [] => false
  | c :: r => (c == '&' && !entityAhead r) || hasBareAmp r

/-- Guard of fix 3: `unescapedLtRegex.test(content)` — some `<` is
immediately followed by a whitespace character. -/
def hasLtWs : List Char → Bool
  | [] => false
  | [_] => false
  | c1 :: c2 :: r => (c1 == '<' && jsWs c2) || hasLtWs (c2 :: r)

/-- Content transformation of `heuristicRepair` (lines 22–54): the four
guarded fixes applied in order. -/
def fixedOf (rawContent : List Char) : List Char :=
  let s1 := if hasIllegal rawContent then stripIllegal rawContent else rawContent
  let s2 := if hasBareAmp s1 then escapeAmps s1 else s1
  let s3 := if hasLtWs s2 then escapeLt s2 else s2
  if endsPartial s3 then s3 ++ ['>'] else s3

/-! ### Validation and result types (`src/types.ts`, repairService.ts lines 6–15). -/

/-- Return type of `validateXML`. -/
structure ValidationOutcome where
  isValid : Bool
  errors : List String
  deriving Repr, DecidableEq

/-- Interface `RepairResult` of `src/types.ts`. -/
structure RepairResult where
  fixedContent : List Char
  isValid : Bool
  errors : List String
  wasModified : Bool
  deriving Repr, DecidableEq

/-- Oracle type standing for the platform `DOMParser`: `none` means
`doc.querySelector("parsererror")` is `null`; `some m` means an error
node is present whose `textContent` is `m` (with `none` or `""` being
the falsy cases). -/
abbrev DomParse := List Char → Option (Option String)

/-- Message substituted when the error node has no usable text
(repairService.ts line 12). -/
def unknownParseError : String := "Unknown XML parsing error"

/-- Error message surfaced for a `parsererror` node: its `textContent`
unless that is null or empty (`errorNode.textContent || "Unknown XML
parsing error"`). -/
def parseErrorText (m : Option String) : String :=
  match m with
  | some t => if t.isEmpty then unknownParseError else t
  | none => unknownParseError

/-- Function `validateXML` (repairService.ts lines 6–15), with the
platform parser supplied as an oracle. -/
def validateXML (domParse : DomParse) (xml : List Char) : ValidationOutcome :=
  match domParse xml with
  | some m => { isValid := false, errors := [parseErrorText m] }
  | none => { isValid := true, errors := [] }

/-- Function `heuristicRepair` (repairService.ts lines 21–68): apply
the four fixes, set `wasModified := content !== original`, validate the
result. -/
def heuristicRepair (domParse : DomParse) (rawContent : List Char) : RepairResult :=
  let content := fixedOf rawContent
  let wasModified := content != rawContent
  let validation := validateXML domParse content
  { fixedContent := content
    isValid := validation.isValid
    errors := validation.errors
    wasModified := wasModified }

/-! ### The AI path (`src/services/geminiService.ts`). -/

/-- Message thrown when no API key is configured (geminiService.ts
line 8). -/
def apiKeyMissingMsg : String := "API Key not found. Please select a key."

/-- Fallback message of the catch-all rethrow (geminiService.ts
line 56). -/
def aiFailMsg : String := "Failed to repair with AI"

/-- One anchored `replace(/^p/, "")`: drop the prefix `p` if present,
otherwise leave the text alone. -/
def dropLead (p l : List Char) : List Char :=
  if p.isPrefixOf l then l.drop p.length else l

/-- One anchored `replace(/s$/, "")`: drop the suffix `s` if present,
otherwise leave the text alone. -/
def dropTrail (s l : List Char) : List Char :=
  if s.isSuffixOf l then l.take (l.length - s.length) else l

/-- Markdown-fence cleanup of geminiService.ts line 43: strip a leading
fence then a trailing fence, each with a single anchored replace. -/
def cleanFences (l : List Char) : List Char :=
  dropTrail "\n```".toList (dropLead "```\n".toList (dropLead "```xml\n".toList l))

/-- Function `repairWithGemini` (geminiService.ts lines 5–58).  The
credential is modelled as `apiKey : Option String` (absent or present,
with the empty string falsy like `!apiKey`); the network interaction
`ai.models.generateContent` is modelled as an oracle
`response : Except String (Option String)` — a thrown transport error
with its message, or a response whose `.text` may be undefined.  A
thrown error is rethrown with `error.message || "Failed to repair with
AI"`. -/
def repairWithGemini (domParse : DomParse) (apiKey : Option String)
    (response : Except String (Option String)) : Except String RepairResult :=
  match apiKey with
  | none => .error apiKeyMissingMsg
  | some k =>
      if k.isEmpty then .error apiKeyMissingMsg
      else
        match response with
        | .error e => .error (if e.isEmpty then aiFailMsg else e)
        | .ok t =>
            let fixedContent := cleanFences (t.getD "").toList
            let validation := validateXML domParse fixedContent
            .ok { fixedContent := fixedContent
                  isValid := validation.isValid
                  errors := validation.errors
                  wasModified := true }

/-! ### Spec-side definitions, written from the words of the
specification and of the claims, to be compared with the definitions
transcribed from the source. -/

/-- Case-insensitive prefix test: the candidate list starts with the
pattern, comparing each candidate character lower-cased against the
pattern character. -/
def ciStarts : List Char → List Char → Bool
  | [], _ => true
  | _ :: _, [] => false
  | p :: ps, c :: cs => (c.toLower == p) && ciStarts ps cs

/-- Spec-side decimal numeric reference tail, written from the spec
sentence: a `#`, then a nonempty run of decimal digits, then `;`
(the caseless characters matched case-insensitively). -/
def specDecRef : List Char → Bool
  | [] => false
  | c :: r =>
      (c.toLower == '#') &&
        !(r.takeWhile isDigitC).isEmpty &&
        ciStarts [';'] (r.dropWhile isDigitC)

/-- Spec-side hexadecimal numeric reference tail, written from the
spec sentence: `#x` (the `x` matched case-insensitively), then a
nonempty run of hexadecimal digits (case-insensitive), then `;`. -/
def specHexRef : List Char → Bool
  | c :: x :: r =>
      (c.toLower == '#') && (x.toLower == 'x') &&
        !(r.takeWhile isHexC).isEmpty &&
        ciStarts [';'] (r.dropWhile isHexC)
  | _ => false

/-- Spec-side "recognized entity tail", amended reading: the text
after a `&` starts with `amp;`, `lt;`, `gt;`, `apos;`, `quot;`, a
decimal numeric reference `#<digits>;`, or a hexadecimal numeric
reference `#x<hexdigits>;`, the whole match case-insensitive. -/
def specRecognizedTail (l : List Char) : Bool :=
  ciStarts ['a', 'm', 'p', ';'] l ||
    ciStarts ['l', 't', ';'] l ||
    ciStarts ['g', 't', ';'] l ||
    ciStarts ['a', 'p', 'o', 's', ';'] l ||
    ciStarts ['q', 'u', 'o', 't', ';'] l ||
    specDecRef l || specHexRef l

/-- Claim-side "recognized entity tail" exactly as claim C1 words it:
the literal (case-sensitive) tails `amp;`, `lt;`, `gt;`, `apos;`,
`quot;`, a decimal numeric reference `#<digits>;`, or a hexadecimal
numeric reference `#x<hexdigits>;` where only the hex digits are
case-insensitive. -/
def claimRecognizedTailCS (l : List Char) : Bool :=
  List.isPrefixOf ['a', 'm', 'p', ';'] l ||
    List.isPrefixOf ['l', 't', ';'] l ||
    List.isPrefixOf ['g', 't', ';'] l ||
    List.isPrefixOf ['a', 'p', 'o', 's', ';'] l ||
    List.isPrefixOf ['q', 'u', 'o', 't', ';'] l ||
    (match l with
     | c :: r =>
         (c == '#') &&
           ((!(r.takeWhile isDigitC).isEmpty &&
               (r.dropWhile isDigitC).head? == some ';') ||
             (match r with
              | x :: r2 =>
                  (x == 'x') && !(r2.takeWhile isHexC).isEmpty &&
                    (r2.dropWhile isHexC).head? == some ';'
              | [] => false))
     | [] => false)

/-! ### A miniature XML well-formedness checker.

Modelled from the spec: the host platform's standard XML parser
(`DOMParser`, spec section 4.1) is not part of the repository sources,
so well-formedness of a concrete document is decided here by a small
recursive-descent parser for a fragment of XML 1.0: a single root
element, nested elements with matching close tags, self-closing tags,
character data, comments, and the five predefined plus numeric
character references.  The checker is deliberately partial (no
attributes, no prolog, no CDATA): it accepts only documents that every
standards-compliant XML parser accepts, which is all that is needed to
certify a concrete document well-formed. -/

/-- XML name character for the miniature checker (ASCII letters,
digits, hyphen, underscore — a subset of XML NameChar). -/
def xmlNameChar (c : Char) : Bool :=
  nameChar c

/-- Text character allowed in character data by the miniature checker:
anything except `<`, `&`, `>` and the control characters excluded by
the XML 1.0 character grammar. -/
def xmlTextChar (c : Char) : Bool :=
  c != '<' && c != '&' && c != '>' && !illegalChar c

/-- Consume an XML comment body after `<!--`, up to and including
`-->`; `--` may not occur inside the body. -/
def xmlComment : List Char → Option (List Char)
  | '-' :: '-' :: '>' :: r => some r
  | '-' :: '-' :: _ => none
  | _ :: r => xmlComment r
  | [] => none

/-- Consume one character reference after `&`: one of the five
predefined entities (case-sensitive, as XML requires) or a numeric
reference. -/
def xmlRefRest : List Char → Option (List Char)
  | 'a' :: 'm' :: 'p' :: ';' :: r => some r
  | 'l' :: 't' :: ';' :: r => some r
  | 'g' :: 't' :: ';' :: r => some r
  | 'a' :: 'p' :: 'o' :: 's' :: ';' :: r => some r
  | 'q' :: 'u' :: 'o' :: 't' :: ';' :: r => some r
  | '#' :: 'x' :: r =>
      let hs := r.takeWhile isHexC
      if hs.isEmpty then none
      else
        match r.dropWhile isHexC with
        | ';' :: r2 => some r2
        | _ => none
  | '#' :: r =>
      let ds := r.takeWhile isDigitC
      if ds.isEmpty then none
      else
        match r.dropWhile isDigitC with
        | ';' :: r2 => some r2
        | _ => none
  | _ => none

/-- Consume a nonempty element name. -/
def xmlName (l : List Char) : Option (List Char × List Char) :=
  let n := l.takeWhile xmlNameChar
  if n.isEmpty then none else some (n, l.dropWhile xmlNameChar)

mutual

/-- Consume one element starting at `<`. -/
def xmlElement (fuel : Nat) (l : List Char) : Option (List Char) :=
  match fuel with
  | 0 => none
  | fuel + 1 =>
      match l with
      | '<' :: r =>
          match xmlName r with
          | some (n, rest) =>
              match rest with
              | '/' :: '>' :: r2 => some r2
              | '>' :: r2 =>
                  match xmlContent fuel r2 with
                  | some ('<' :: '/' :: r3) =>
                      match xmlName r3 with
                      | some (n2, r4) =>
                          if n2 == n then
                            match r4 with
                            | '>' :: r5 => some r5
                            | _ => none
                          else none
                      | none => none
                  | _ => none
              | _ => none
          | none => none
      | _ => none

/-- Consume element content: character data, references, comments and
child elements, stopping at a closing tag or at the end. -/
def xmlContent (fuel : Nat) (l : List Char) : Option (List Char) :=
  match fuel with
  | 0 => none
  | fuel + 1 =>
      match l with
      | [] => some []
      | '<' :: '/' :: r => some ('<' :: '/' :: r)
      | '<' :: '!' :: '-' :: '-' :: r =>
          match xmlComment r with
          | some r2 => xmlContent fuel r2
          | none => none
      | '<' :: r =>
          match xmlElement fuel ('<' :: r) with
          | some r2 => xmlContent fuel r2
          | none => none
      | '&' :: r =>
          match xmlRefRest r with
          | some r2 => xmlContent fuel r2
          | none => none
      | c :: r => if xmlTextChar c then xmlContent fuel r else none

end

/-- Modelled from the spec: well-formedness of a whole document as the
platform parser would judge it, for the fragment covered by the
miniature checker — a single root element spanning the entire input. -/
def xmlWellFormed (l : List Char) : Bool :=
  match xmlElement (l.length + 1) l with
  | some [] => true
  | _ => false

/-! ### Invariant predicates used by the proofs. -/

/-- Every `&` in the list is immediately followed by a recognized
entity tail, so the unescaped-ampersand regex has no match. -/
def okAmps : List Char → Bool
  | [] => true
  | c :: r => (c != '&' || entityAhead r) && okAmps r

/-- No `<` in the list is immediately followed by a whitespace
character, so the bare-less-than regex has no match. -/
def okLt : List Char → Bool
  | [] => true
  | [_] => true
  | c1 :: c2 :: r => (c1 != '<' || !jsWs c2) && okLt (c2 :: r)

/-- The list contains no illegal control character. -/
def noIllegal (l : List Char) : Bool :=
  l.all (fun c => !illegalChar c)

/-! ### Guard elimination: when a fix's `test` guard is false, the
corresponding replacement is the identity, so the guarded and
unguarded forms agree. -/

theorem hasIllegal_eq_not_noIllegal (l : List Char) :
    hasIllegal l = !noIllegal l := by
  induction l with
  | nil => rfl
  | cons c r ih =>
      rw [hasIllegal, noIllegal] at ih ⊢
      rw [List.any_cons, List.all_cons, ih]
      cases illegalChar c <;> cases r.all (fun c => !illegalChar c) <;> rfl

theorem hasBareAmp_eq_not_okAmps (l : List Char) :
    hasBareAmp l = !okAmps l := by
  induction l with
  | nil => rfl
  | cons c r ih =>
      rw [hasBareAmp, okAmps, ih, bne]
      cases c == '&' <;> cases entityAhead r <;> cases okAmps r <;> rfl

theorem hasLtWs_eq_not_okLt : ∀ l : List Char, hasLtWs l = !okLt l
  | [] => rfl
  | [_] => rfl
  | c1 :: c2 :: r => by
      rw [hasLtWs, okLt, hasLtWs_eq_not_okLt (c2 :: r), bne]
      cases c1 == '<' <;> cases jsWs c2 <;> cases okLt (c2 :: r) <;> rfl

theorem stripIllegal_of_noIllegal (l : List Char) (h : noIllegal l = true) :
    stripIllegal l = l := by
  rw [stripIllegal, List.filter_eq_self]
  simpa [noIllegal, List.all_eq_true] using h

theorem escapeAmps_of_okAmps : ∀ l : List Char, okAmps l = true → escapeAmps l = l
  | [], _ => rfl
  | c :: r, h => by
      simp only [okAmps, Bool.and_eq_true, Bool.or_eq_true, bne_iff_ne] at h
      obtain ⟨h1, h2⟩ := h
      have hcond : (c == '&' && !entityAhead r) = false := by
        rcases h1 with h1 | h1
        · simp [h1]
        · simp [h1]
      simp [escapeAmps, hcond, escapeAmps_of_okAmps r h2]

theorem escapeLt_of_okLt : ∀ l : List Char, okLt l = true → escapeLt l = l
  | [], _ => rfl
  | [_], _ => rfl
  | c1 :: c2 :: r, h => by
      simp only [okLt, Bool.and_eq_true, Bool.or_eq_true, bne_iff_ne] at h
      obtain ⟨h1, h2⟩ := h
      have hcond : (c1 == '<' && jsWs c2) = false := by
        rcases h1 with h1 | h1
        · simp [h1]
        · simp only [Bool.not_eq_true'] at h1
          simp [h1]
      simp [escapeLt, hcond, escapeLt_of_okLt (c2 :: r) h2]

theorem fixTruncatedTag_of_not_ends (l : List Char) (h : endsPartial l = false) :
    fixTruncatedTag l = l := by
  simp [fixTruncatedTag, h]

theorem guardIllegal_eq (l : List Char) :
    (if hasIllegal l = true then stripIllegal l else l) = stripIllegal l := by
  cases h : hasIllegal l with
  | true => simp
  | false =>
      rw [hasIllegal_eq_not_noIllegal, Bool.not_eq_false'] at h
      simp [stripIllegal_of_noIllegal l h]

theorem guardAmp_eq (l : List Char) :
    (if hasBareAmp l = true then escapeAmps l else l) = escapeAmps l := by
  cases h : hasBareAmp l with
  | true => simp
  | false =>
      rw [hasBareAmp_eq_not_okAmps, Bool.not_eq_false'] at h
      simp [escapeAmps_of_okAmps l h]

theorem guardLt_eq (l : List Char) :
    (if hasLtWs l = true then escapeLt l else l) = escapeLt l := by
  cases h : hasLtWs l with
  | true => simp
  | false =>
      rw [hasLtWs_eq_not_okLt, Bool.not_eq_false'] at h
      simp [escapeLt_of_okLt l h]

/-- With the guards eliminated, `fixedOf` is the plain composition of
the four fixes. -/
theorem fixedOf_eq (l : List Char) :
    fixedOf l = fixTruncatedTag (escapeLt (escapeAmps (stripIllegal l))) := by
  rw [fixedOf, guardIllegal_eq, guardAmp_eq, guardLt_eq, fixTruncatedTag]

/-- The `fixedContent` field of the heuristic result is `fixedOf`,
whatever the parser oracle. -/
theorem heuristicRepair_fixedContent (P : DomParse) (x : List Char) :
    (heuristicRepair P x).fixedContent = fixedOf x := rfl

/-! ### The regex lookahead agrees with the spec-side recognized-tail
predicate. -/

theorem moreDigitsSemi_eq (r : List Char) :
    moreDigitsSemi r = ciStarts [';'] (r.dropWhile isDigitC) := by
  induction r with
  | nil => rfl
  | cons c r ih =>
      rw [moreDigitsSemi, List.dropWhile_cons]
      cases h : isDigitC c with
      | true => simp [h, ih]
      | false => simp [h, ciStarts, lowEq]

theorem digitsSemi_eq (r : List Char) :
    digitsSemi r =
      (!(r.takeWhile isDigitC).isEmpty && ciStarts [';'] (r.dropWhile isDigitC)) := by
  cases r with
  | nil => rfl
  | cons c r =>
      rw [digitsSemi, List.takeWhile_cons, List.dropWhile_cons, moreDigitsSemi_eq]
      cases h : isDigitC c <;> simp [h]

theorem moreHexSemi_eq (r : List Char) :
    moreHexSemi r = ciStarts [';'] (r.dropWhile isHexC) := by
  induction r with
  | nil => rfl
  | cons c r ih =>
      rw [moreHexSemi, List.dropWhile_cons]
      cases h : isHexC c with
      | true => simp [h, ih]
      | false => simp [h, ciStarts, lowEq]

theorem hexSemi_eq (r : List Char) :
    hexSemi r =
      (!(r.takeWhile isHexC).isEmpty && ciStarts [';'] (r.dropWhile isHexC)) := by
  cases r with
  | nil => rfl
  | cons c r =>
      rw [hexSemi, List.takeWhile_cons, List.dropWhile_cons, moreHexSemi_eq]
      cases h : isHexC c <;> simp [h]

theorem ampTail_eq (l : List Char) :
    ampTail l = ciStarts ['a', 'm', 'p', ';'] l := by
  rcases l with _ | ⟨c1, _ | ⟨c2, _ | ⟨c3, _ | ⟨c4, r⟩⟩⟩⟩ <;>
    simp [ampTail, ciStarts, lowEq, Bool.and_assoc]

theorem ltTail_eq (l : List Char) :
    ltTail l = ciStarts ['l', 't', ';'] l := by
  rcases l with _ | ⟨c1, _ | ⟨c2, _ | ⟨c3, r⟩⟩⟩ <;>
    simp [ltTail, ciStarts, lowEq, Bool.and_assoc]

theorem gtTail_eq (l : List Char) :
    gtTail l = ciStarts ['g', 't', ';'] l := by
  rcases l with _ | ⟨c1, _ | ⟨c2, _ | ⟨c3, r⟩⟩⟩ <;>
    simp [gtTail, ciStarts, lowEq, Bool.and_assoc]

theorem aposTail_eq (l : List Char) :
    aposTail l = ciStarts ['a', 'p', 'o', 's', ';'] l := by
  rcases l with _ | ⟨c1, _ | ⟨c2, _ | ⟨c3, _ | ⟨c4, _ | ⟨c5, r⟩⟩⟩⟩⟩ <;>
    simp [aposTail, ciStarts, lowEq, Bool.and_assoc]

theorem quotTail_eq (l : List Char) :
    quotTail l = ciStarts ['q', 'u', 'o', 't', ';'] l := by
  rcases l with _ | ⟨c1, _ | ⟨c2, _ | ⟨c3, _ | ⟨c4, _ | ⟨c5, r⟩⟩⟩⟩⟩ <;>
    simp [quotTail, ciStarts, lowEq, Bool.and_assoc]

theorem numTail_one (c : Char) :
    numTail [c] = (lowEq c '#' && (digitsSemi [] || false)) := rfl

theorem numTail_cons2 (c x : Char) (r2 : List Char) :
    numTail (c :: x :: r2) =
      (lowEq c '#' && (digitsSemi (x :: r2) || (lowEq x 'x' && hexSemi r2))) := rfl

theorem specDecRef_cons (c : Char) (r : List Char) :
    specDecRef (c :: r) =
      ((c.toLower == '#') &&
        !(r.takeWhile isDigitC).isEmpty && ciStarts [';'] (r.dropWhile isDigitC)) := rfl

theorem specHexRef_one (c : Char) : specHexRef [c] = false := rfl

theorem specHexRef_cons2 (c x : Char) (r : List Char) :
    specHexRef (c :: x :: r) =
      ((c.toLower == '#') && (x.toLower == 'x') &&
        !(r.takeWhile isHexC).isEmpty && ciStarts [';'] (r.dropWhile isHexC)) := rfl

theorem numTail_eq (l : List Char) :
    numTail l = (specDecRef l || specHexRef l) := by
  rcases l with _ | ⟨c, _ | ⟨x, r2⟩⟩
  · rfl
  · rw [numTail_one, specDecRef_cons, specHexRef_one]
    simp [digitsSemi, lowEq]
  · rw [numTail_cons2, specDecRef_cons, specHexRef_cons2, digitsSemi_eq, hexSemi_eq]
    simp only [lowEq]
    cases c.toLower == '#' <;> cases x.toLower == 'x' <;>
      cases (List.takeWhile isDigitC (x :: r2)).isEmpty <;>
      cases ciStarts [';'] (List.dropWhile isDigitC (x :: r2)) <;>
      cases (r2.takeWhile isHexC).isEmpty <;>
      cases ciStarts [';'] (r2.dropWhile isHexC) <;> rfl

theorem entityAhead_eq_spec (l : List Char) :
    entityAhead l = specRecognizedTail l := by
  rw [entityAhead, specRecognizedTail, ampTail_eq, ltTail_eq, gtTail_eq,
    aposTail_eq, quotTail_eq, numTail_eq]
  simp [Bool.or_assoc]

/-! ### Character facts and skip lemmas. -/

theorem beq_false_of_pred {c e : Char} (p : Char → Bool) (h : p c = true)
    (he : p e = false) : (c == e) = false := by
  cases hce : c == e
  · rfl
  · exfalso
    have hc := eq_of_beq hce
    subst hc
    simp [h] at he

/-- A scan position whose character is not `&` is copied verbatim by
the ampersand fix. -/
theorem escapeAmps_cons_ne (c : Char) (l : List Char) (hc : (c == '&') = false) :
    escapeAmps (c :: l) = c :: escapeAmps l := by
  simp [escapeAmps, hc]

/-- A `&`-free block passes through the ampersand fix unchanged. -/
theorem escapeAmps_append (p r : List Char) (h : ∀ c ∈ p, (c == '&') = false) :
    escapeAmps (p ++ r) = p ++ escapeAmps r := by
  induction p with
  | nil => rfl
  | cons c p ih =>
      rw [List.cons_append,
        escapeAmps_cons_ne c (p ++ r) (h c (List.mem_cons_self c p)),
        ih (fun d hd => h d (List.mem_cons_of_mem c hd)), List.cons_append]

/-- A scan position whose character is not `<` is copied verbatim by
the less-than fix. -/
theorem escapeLt_cons_ne (c : Char) (l : List Char) (hc : (c == '<') = false) :
    escapeLt (c :: l) = c :: escapeLt l := by
  cases l with
  | nil => rfl
  | cons d t => simp [escapeLt, hc]

/-- A `<`-free block passes through the less-than fix unchanged. -/
theorem escapeLt_append (p r : List Char) (h : ∀ c ∈ p, (c == '<') = false) :
    escapeLt (p ++ r) = p ++ escapeLt r := by
  induction p with
  | nil => rfl
  | cons c p ih =>
      rw [List.cons_append,
        escapeLt_cons_ne c (p ++ r) (h c (List.mem_cons_self c p)),
        ih (fun d hd => h d (List.mem_cons_of_mem c hd)), List.cons_append]

/-! ### Decomposition and reconstruction of the numeric-reference
scans, used to show the lookahead is stable under the later fixes. -/

theorem moreDigitsSemi_split :
    ∀ r : List Char, moreDigitsSemi r = true →
      ∃ ds c r2, r = ds ++ c :: r2 ∧ (∀ d ∈ ds, isDigitC d = true) ∧
        isDigitC c = false ∧ lowEq c ';' = true
  | [], h => by simp [moreDigitsSemi] at h
  | c :: r, h => by
      rw [moreDigitsSemi] at h
      cases hd : isDigitC c with
      | true =>
          rw [hd, if_pos rfl] at h
          obtain ⟨ds, c2, r2, heq, hds, hc2, hs2⟩ := moreDigitsSemi_split r h
          refine ⟨c :: ds, c2, r2, by rw [heq, List.cons_append], ?_, hc2, hs2⟩
          intro d hdm
          rcases List.mem_cons.mp hdm with rfl | hdm
          · exact hd
          · exact hds d hdm
      | false =>
          rw [hd] at h
          simp only [if_neg (by simp : ¬(false = true))] at h
          exact ⟨[], c, r, rfl, by simp, hd, h⟩

theorem moreDigitsSemi_rebuild (ds : List Char) (hds : ∀ d ∈ ds, isDigitC d = true)
    (c : Char) (hc : isDigitC c = false) (hs : lowEq c ';' = true) (r2 : List Char) :
    moreDigitsSemi (ds ++ c :: r2) = true := by
  induction ds with
  | nil => simp [moreDigitsSemi, hc, hs]
  | cons d ds ih =>
      rw [List.cons_append, moreDigitsSemi, hds d (List.mem_cons_self d ds)]
      simp only [if_pos rfl]
      exact ih (fun e he => hds e (List.mem_cons_of_mem d he))

theorem moreHexSemi_split :
    ∀ r : List Char, moreHexSemi r = true →
      ∃ hs c r2, r = hs ++ c :: r2 ∧ (∀ d ∈ hs, isHexC d = true) ∧
        isHexC c = false ∧ lowEq c ';' = true
  | [], h => by simp [moreHexSemi] at h
  | c :: r, h => by
      rw [moreHexSemi] at h
      cases hd : isHexC c with
      | true =>
          rw [hd, if_pos rfl] at h
          obtain ⟨hs, c2, r2, heq, hhs, hc2, hs2⟩ := moreHexSemi_split r h
          refine ⟨c :: hs, c2, r2, by rw [heq, List.cons_append], ?_, hc2, hs2⟩
          intro d hdm
          rcases List.mem_cons.mp hdm with rfl | hdm
          · exact hd
          · exact hhs d hdm
      | false =>
          rw [hd] at h
          simp only [if_neg (by simp : ¬(false = true))] at h
          exact ⟨[], c, r, rfl, by simp, hd, h⟩

theorem moreHexSemi_rebuild (hl : List Char) (hhl : ∀ d ∈ hl, isHexC d = true)
    (c : Char) (hc : isHexC c = false) (hs : lowEq c ';' = true) (r2 : List Char) :
    moreHexSemi (hl ++ c :: r2) = true := by
  induction hl with
  | nil => simp [moreHexSemi, hc, hs]
  | cons d hl ih =>
      rw [List.cons_append, moreHexSemi, hhl d (List.mem_cons_self d hl)]
      simp only [if_pos rfl]
      exact ih (fun e he => hhl e (List.mem_cons_of_mem d he))

theorem tame_of_lowEq {c : Char} (d : Char) (h : lowEq c d = true)
    (h1 : lowEq '&' d = false) (h2 : lowEq '<' d = false) :
    (c == '&') = false ∧ (c == '<') = false :=
  ⟨beq_false_of_pred (fun x => lowEq x d) h h1,
   beq_false_of_pred (fun x => lowEq x d) h h2⟩

theorem tame_of_digit {c : Char} (h : isDigitC c = true) :
    (c == '&') = false ∧ (c == '<') = false :=
  ⟨beq_false_of_pred isDigitC h (by decide),
   beq_false_of_pred isDigitC h (by decide)⟩

theorem tame_of_hex {c : Char} (h : isHexC c = true) :
    (c == '&') = false ∧ (c == '<') = false :=
  ⟨beq_false_of_pred isHexC h (by decide),
   beq_false_of_pred isHexC h (by decide)⟩

/-- A recognized entity tail starts with a matched pattern block that
contains neither `&` nor `<`, and any list starting with that block is
again a recognized entity tail, whatever follows it. -/
theorem entityAhead_extract (r : List Char) (h : entityAhead r = true) :
    ∃ p r2, r = p ++ r2 ∧ (∀ c ∈ p, (c == '&') = false ∧ (c == '<') = false) ∧
      (∀ z, entityAhead (p ++ z) = true) := by
  rw [entityAhead] at h
  simp only [Bool.or_eq_true] at h
  rcases h with ((((h | h) | h) | h) | h) | h
  · rcases r with _ | ⟨c1, _ | ⟨c2, _ | ⟨c3, _ | ⟨c4, r⟩⟩⟩⟩ <;> try exact absurd h Bool.false_ne_true
    simp only [ampTail, Bool.and_eq_true] at h
    obtain ⟨⟨⟨h1, h2⟩, h3⟩, h4⟩ := h
    refine ⟨[c1, c2, c3, c4], r, rfl, ?_, ?_⟩
    · intro c hcm
      simp only [List.mem_cons, List.not_mem_nil, or_false] at hcm
      rcases hcm with rfl | rfl | rfl | rfl
      · exact tame_of_lowEq 'a' h1 (by decide) (by decide)
      · exact tame_of_lowEq 'm' h2 (by decide) (by decide)
      · exact tame_of_lowEq 'p' h3 (by decide) (by decide)
      · exact tame_of_lowEq ';' h4 (by decide) (by decide)
    · intro z
      simp [entityAhead, ampTail, h1, h2, h3, h4]
  · rcases r with _ | ⟨c1, _ | ⟨c2, _ | ⟨c3, r⟩⟩⟩ <;> try exact absurd h Bool.false_ne_true
    simp only [ltTail, Bool.and_eq_true] at h
    obtain ⟨⟨h1, h2⟩, h3⟩ := h
    refine ⟨[c1, c2, c3], r, rfl, ?_, ?_⟩
    · intro c hcm
      simp only [List.mem_cons, List.not_mem_nil, or_false] at hcm
      rcases hcm with rfl | rfl | rfl
      · exact tame_of_lowEq 'l' h1 (by decide) (by decide)
      · exact tame_of_lowEq 't' h2 (by decide) (by decide)
      · exact tame_of_lowEq ';' h3 (by decide) (by decide)
    · intro z
      simp [entityAhead, ltTail, h1, h2, h3]
  · rcases r with _ | ⟨c1, _ | ⟨c2, _ | ⟨c3, r⟩⟩⟩ <;> try exact absurd h Bool.false_ne_true
    simp only [gtTail, Bool.and_eq_true] at h
    obtain ⟨⟨h1, h2⟩, h3⟩ := h
    refine ⟨[c1, c2, c3], r, rfl, ?_, ?_⟩
    · intro c hcm
      simp only [List.mem_cons, List.not_mem_nil, or_false] at hcm
      rcases hcm with rfl | rfl | rfl
      · exact tame_of_lowEq 'g' h1 (by decide) (by decide)
      · exact tame_of_lowEq 't' h2 (by decide) (by decide)
      · exact tame_of_lowEq ';' h3 (by decide) (by decide)
    · intro z
      simp [entityAhead, gtTail, h1, h2, h3]
  · rcases r with _ | ⟨c1, _ | ⟨c2, _ | ⟨c3, _ | ⟨c4, _ | ⟨c5, r⟩⟩⟩⟩⟩ <;> try exact absurd h Bool.false_ne_true
    simp only [aposTail, Bool.and_eq_true] at h
    obtain ⟨⟨⟨⟨h1, h2⟩, h3⟩, h4⟩, h5⟩ := h
    refine ⟨[c1, c2, c3, c4, c5], r, rfl, ?_, ?_⟩
    · intro c hcm
      simp only [List.mem_cons, List.not_mem_nil, or_false] at hcm
      rcases hcm with rfl | rfl | rfl | rfl | rfl
      · exact tame_of_lowEq 'a' h1 (by decide) (by decide)
      · exact tame_of_lowEq 'p' h2 (by decide) (by decide)
      · exact tame_of_lowEq 'o' h3 (by decide) (by decide)
      · exact tame_of_lowEq 's' h4 (by decide) (by decide)
      · exact tame_of_lowEq ';' h5 (by decide) (by decide)
    · intro z
      simp [entityAhead, aposTail, h1, h2, h3, h4, h5]
  · rcases r with _ | ⟨c1, _ | ⟨c2, _ | ⟨c3, _ | ⟨c4, _ | ⟨c5, r⟩⟩⟩⟩⟩ <;> try exact absurd h Bool.false_ne_true
    simp only [quotTail, Bool.and_eq_true] at h
    obtain ⟨⟨⟨⟨h1, h2⟩, h3⟩, h4⟩, h5⟩ := h
    refine ⟨[c1, c2, c3, c4, c5], r, rfl, ?_, ?_⟩
    · intro c hcm
      simp only [List.mem_cons, List.not_mem_nil, or_false] at hcm
      rcases hcm with rfl | rfl | rfl | rfl | rfl
      · exact tame_of_lowEq 'q' h1 (by decide) (by decide)
      · exact tame_of_lowEq 'u' h2 (by decide) (by decide)
      · exact tame_of_lowEq 'o' h3 (by decide) (by decide)
      · exact tame_of_lowEq 't' h4 (by decide) (by decide)
      · exact tame_of_lowEq ';' h5 (by decide) (by decide)
    · intro z
      simp [entityAhead, quotTail, h1, h2, h3, h4, h5]
  · rcases r with _ | ⟨c, _ | ⟨x, rx⟩⟩
    · exact absurd h Bool.false_ne_true
    · rw [numTail_one] at h
      simp [digitsSemi] at h
    · rw [numTail_cons2] at h
      simp only [Bool.and_eq_true, Bool.or_eq_true] at h
      obtain ⟨hsharp, hbody⟩ := h
      rcases hbody with hdec | hhex
      · rw [digitsSemi] at hdec
        simp only [Bool.and_eq_true] at hdec
        obtain ⟨hd0, hmore⟩ := hdec
        obtain ⟨ds, t, r2, heq, hds, htd, hts⟩ := moreDigitsSemi_split rx hmore
        refine ⟨c :: x :: (ds ++ [t]), r2, ?_, ?_, ?_⟩
        · rw [heq]
          simp [List.append_assoc]
        · intro e hem
          simp only [List.mem_cons, List.mem_append, List.mem_singleton, List.not_mem_nil, or_false] at hem
          rcases hem with rfl | rfl | hem | rfl
          · exact tame_of_lowEq '#' hsharp (by decide) (by decide)
          · exact tame_of_digit hd0
          · exact tame_of_digit (hds e hem)
          · exact tame_of_lowEq ';' hts (by decide) (by decide)
        · intro z
          have hre : moreDigitsSemi (ds ++ t :: z) = true :=
            moreDigitsSemi_rebuild ds hds t htd hts z
          simp [entityAhead, numTail_cons2, digitsSemi, hsharp, hd0, hre,
            List.append_assoc]
      · obtain ⟨hx, hhs⟩ := hhex
        rcases rx with _ | ⟨h0, r0⟩
        · simp [hexSemi] at hhs
        · rw [hexSemi] at hhs
          simp only [Bool.and_eq_true] at hhs
          obtain ⟨hh0, hmore⟩ := hhs
          obtain ⟨hl, t, r2, heq, hhl, hth, hts⟩ := moreHexSemi_split r0 hmore
          refine ⟨c :: x :: h0 :: (hl ++ [t]), r2, ?_, ?_, ?_⟩
          · rw [heq]
            simp [List.append_assoc]
          · intro e hem
            simp only [List.mem_cons, List.mem_append, List.mem_singleton, List.not_mem_nil, or_false] at hem
            rcases hem with rfl | rfl | rfl | hem | rfl
            · exact tame_of_lowEq '#' hsharp (by decide) (by decide)
            · exact tame_of_lowEq 'x' hx (by decide) (by decide)
            · exact tame_of_hex hh0
            · exact tame_of_hex (hhl e hem)
            · exact tame_of_lowEq ';' hts (by decide) (by decide)
          · intro z
            have hre : moreHexSemi (hl ++ t :: z) = true :=
              moreHexSemi_rebuild hl hhl t hth hts z
            simp [entityAhead, numTail_cons2, hexSemi, hsharp, hx, hh0, hre,
              List.append_assoc]

/-- The lookahead stays true after the ampersand fix runs on the
tail. -/
theorem entityAhead_escapeAmps (r : List Char) (h : entityAhead r = true) :
    entityAhead (escapeAmps r) = true := by
  obtain ⟨p, r2, rfl, hp, hall⟩ := entityAhead_extract r h
  rw [escapeAmps_append p r2 (fun c hc => (hp c hc).1)]
  exact hall (escapeAmps r2)

/-- The lookahead stays true after the less-than fix runs on the
tail. -/
theorem entityAhead_escapeLt (r : List Char) (h : entityAhead r = true) :
    entityAhead (escapeLt r) = true := by
  obtain ⟨p, r2, rfl, hp, hall⟩ := entityAhead_extract r h
  rw [escapeLt_append p r2 (fun c hc => (hp c hc).2)]
  exact hall (escapeLt r2)

/-- The lookahead stays true when more text is appended after the
tail. -/
theorem entityAhead_append (r z : List Char) (h : entityAhead r = true) :
    entityAhead (r ++ z) = true := by
  obtain ⟨p, r2, rfl, _, hall⟩ := entityAhead_extract r h
  rw [List.append_assoc]
  exact hall (r2 ++ z)

/-! ### Preservation of the no-match invariants by the later fixes. -/

theorem okAmps_cons (c : Char) (r : List Char) :
    okAmps (c :: r) = ((c != '&' || entityAhead r) && okAmps r) := rfl

theorem entity_amp_block (z : List Char) :
    entityAhead ('a' :: 'm' :: 'p' :: ';' :: z) = true := by
  have h : ampTail ('a' :: 'm' :: 'p' :: ';' :: z) = true := by
    simp only [ampTail]
    decide
  simp [entityAhead, h]

theorem entity_lt_block (z : List Char) :
    entityAhead ('l' :: 't' :: ';' :: z) = true := by
  have h : ltTail ('l' :: 't' :: ';' :: z) = true := by
    simp only [ltTail]
    decide
  simp [entityAhead, h]

/-- After the ampersand fix, every `&` is followed by a recognized
entity tail. -/
theorem okAmps_escapeAmps : ∀ l : List Char, okAmps (escapeAmps l) = true
  | [] => rfl
  | c :: r => by
      have ih := okAmps_escapeAmps r
      cases hcond : (c == '&' && !entityAhead r) with
      | true =>
          have heq : escapeAmps (c :: r) = '&' :: 'a' :: 'm' :: 'p' :: ';' :: escapeAmps r := by
            simp [escapeAmps, hcond]
          rw [heq, okAmps_cons, okAmps_cons, okAmps_cons, okAmps_cons, okAmps_cons, ih,
            entity_amp_block]
          simp [(by decide : (('a' : Char) != '&') = true),
            (by decide : (('m' : Char) != '&') = true),
            (by decide : (('p' : Char) != '&') = true),
            (by decide : ((';' : Char) != '&') = true)]
      | false =>
          have heq : escapeAmps (c :: r) = c :: escapeAmps r := by
            simp [escapeAmps, hcond]
          rw [heq, okAmps_cons, ih, Bool.and_true]
          cases hc : c == '&' with
          | false => simp [bne, hc]
          | true =>
              have he : entityAhead r = true := by
                cases he : entityAhead r with
                | true => rfl
                | false => rw [hc, he] at hcond; simp at hcond
              simp [entityAhead_escapeAmps r he]

/-- The okAmps invariant survives the bare-less-than fix. -/
theorem okAmps_escapeLt : ∀ l : List Char, okAmps l = true → okAmps (escapeLt l) = true
  | [], _ => rfl
  | [c], h => h
  | c1 :: c2 :: r, h => by
      rw [okAmps_cons, Bool.and_eq_true] at h
      obtain ⟨h1, h2⟩ := h
      cases hcond : (c1 == '<' && jsWs c2) with
      | true =>
          have heq : escapeLt (c1 :: c2 :: r) = '&' :: 'l' :: 't' :: ';' :: c2 :: escapeLt r := by
            simp [escapeLt, hcond]
          have hcond2 := hcond
          rw [Bool.and_eq_true] at hcond2
          obtain ⟨hc1, hws⟩ := hcond2
          have hr : okAmps r = true := by
            rw [okAmps_cons, Bool.and_eq_true] at h2
            exact h2.2
          have ihr := okAmps_escapeLt r hr
          have hc2 : (c2 == '&') = false :=
            beq_false_of_pred jsWs hws (by decide)
          rw [heq, okAmps_cons, okAmps_cons, okAmps_cons, okAmps_cons, okAmps_cons, ihr,
            entity_lt_block]
          simp [bne, hc2, (by decide : (('l' : Char) != '&') = true),
            (by decide : (('t' : Char) != '&') = true),
            (by decide : ((';' : Char) != '&') = true)]
      | false =>
          have heq : escapeLt (c1 :: c2 :: r) = c1 :: escapeLt (c2 :: r) := by
            simp [escapeLt, hcond]
          have ih2 := okAmps_escapeLt (c2 :: r) h2
          rw [heq, okAmps_cons, ih2, Bool.and_true]
          cases hc : c1 == '&' with
          | false => simp [bne, hc]
          | true =>
              have he : entityAhead (c2 :: r) = true := by
                rw [Bool.or_eq_true] at h1
                rcases h1 with hx | hx
                · rw [bne, hc] at hx
                  simp at hx
                · exact hx
              simp [entityAhead_escapeLt (c2 :: r) he]

/-- The okAmps invariant survives appending the repaired `>`. -/
theorem okAmps_append_gt : ∀ l : List Char, okAmps l = true → okAmps (l ++ ['>']) = true
  | [], _ => by decide
  | c :: r, h => by
      rw [okAmps_cons, Bool.and_eq_true] at h
      obtain ⟨h1, h2⟩ := h
      rw [List.cons_append, okAmps_cons, okAmps_append_gt r h2, Bool.and_true]
      cases hc : c == '&' with
      | false => simp [bne, hc]
      | true =>
          have he : entityAhead r = true := by
            rw [Bool.or_eq_true] at h1
            rcases h1 with hx | hx
            · rw [bne, hc] at hx
              simp at hx
            · exact hx
          simp [entityAhead_append r ['>'] he]

theorem okLt_cons_ne (c : Char) (l : List Char) (hc : (c == '<') = false) :
    okLt (c :: l) = okLt l := by
  cases l with
  | nil => rfl
  | cons d t => simp [okLt, bne, hc]

/-- The head of the less-than fix's output on a nonempty list is
either the original head or the `&` of an inserted `&lt;`. -/
theorem escapeLt_head (c : Char) (r : List Char) :
    (∃ t, escapeLt (c :: r) = c :: t) ∨ (∃ t, escapeLt (c :: r) = '&' :: t) := by
  cases r with
  | nil => exact Or.inl ⟨[], rfl⟩
  | cons d t =>
      cases hcond : (c == '<' && jsWs d) with
      | true =>
          refine Or.inr ⟨'l' :: 't' :: ';' :: d :: escapeLt t, ?_⟩
          simp [escapeLt, hcond]
      | false =>
          refine Or.inl ⟨escapeLt (d :: t), ?_⟩
          simp [escapeLt, hcond]

/-- After the bare-less-than fix, no `<` is followed by whitespace. -/
theorem okLt_escapeLt : ∀ l : List Char, okLt (escapeLt l) = true
  | [] => rfl
  | [_] => rfl
  | c1 :: c2 :: r => by
      cases hcond : (c1 == '<' && jsWs c2) with
      | true =>
          have heq : escapeLt (c1 :: c2 :: r) = '&' :: 'l' :: 't' :: ';' :: c2 :: escapeLt r := by
            simp [escapeLt, hcond]
          have hcond2 := hcond
          rw [Bool.and_eq_true] at hcond2
          obtain ⟨hc1, hws⟩ := hcond2
          have hc2 : (c2 == '<') = false :=
            beq_false_of_pred jsWs hws (by decide)
          have ihr := okLt_escapeLt r
          rw [heq, okLt_cons_ne '&' _ (by decide), okLt_cons_ne 'l' _ (by decide),
            okLt_cons_ne 't' _ (by decide), okLt_cons_ne ';' _ (by decide),
            okLt_cons_ne c2 _ hc2]
          exact ihr
      | false =>
          have heq : escapeLt (c1 :: c2 :: r) = c1 :: escapeLt (c2 :: r) := by
            simp [escapeLt, hcond]
          have ih := okLt_escapeLt (c2 :: r)
          rw [heq]
          cases hc1 : c1 == '<' with
          | false => rw [okLt_cons_ne c1 _ hc1]; exact ih
          | true =>
              have hws : jsWs c2 = false := by
                cases hws : jsWs c2 with
                | false => rfl
                | true => rw [hc1, hws] at hcond; simp at hcond
              rcases escapeLt_head c2 r with ⟨t, ht⟩ | ⟨t, ht⟩
              · rw [ht]
                have : okLt (c1 :: c2 :: t) = okLt (c2 :: t) := by
                  simp [okLt, hws]
                rw [this, ← ht]
                exact ih
              · rw [ht]
                have : okLt (c1 :: '&' :: t) = okLt ('&' :: t) := by
                  simp [okLt, (by decide : jsWs '&' = false)]
                rw [this, ← ht]
                exact ih

/-- The okLt invariant survives appending the repaired `>`. -/
theorem okLt_append_gt : ∀ l : List Char, okLt l = true → okLt (l ++ ['>']) = true
  | [], _ => by decide
  | [c], _ => by
      have h : okLt [c, '>'] = okLt ['>'] := by
        simp [okLt, (by decide : jsWs '>' = false)]
      rw [List.cons_append, List.nil_append, h]
      rfl
  | c1 :: c2 :: r, h => by
      rw [okLt] at h
      rw [Bool.and_eq_true] at h
      obtain ⟨h1, h2⟩ := h
      rw [List.cons_append]
      have : okLt (c1 :: (c2 :: r ++ ['>'])) =
          ((c1 != '<' || !jsWs c2) && okLt (c2 :: r ++ ['>'])) := by
        rw [List.cons_append]
        rfl
      rw [this, h1, okLt_append_gt (c2 :: r) h2]
      rfl

/-! ### Absence of illegal characters after the fixes. -/

theorem noIllegal_cons (c : Char) (l : List Char) :
    noIllegal (c :: l) = (!illegalChar c && noIllegal l) := by
  rw [noIllegal, noIllegal, List.all_cons]

theorem noIllegal_stripIllegal (l : List Char) : noIllegal (stripIllegal l) = true := by
  rw [noIllegal, List.all_eq_true]
  intro c hc
  rw [stripIllegal] at hc
  exact (List.mem_filter.mp hc).2

theorem noIllegal_escapeAmps : ∀ l : List Char,
    noIllegal l = true → noIllegal (escapeAmps l) = true
  | [], _ => rfl
  | c :: r, h => by
      rw [noIllegal_cons, Bool.and_eq_true] at h
      obtain ⟨h1, h2⟩ := h
      have ih := noIllegal_escapeAmps r h2
      cases hcond : (c == '&' && !entityAhead r) with
      | true =>
          have heq : escapeAmps (c :: r) = '&' :: 'a' :: 'm' :: 'p' :: ';' :: escapeAmps r := by
            simp [escapeAmps, hcond]
          rw [heq, noIllegal_cons, noIllegal_cons, noIllegal_cons, noIllegal_cons,
            noIllegal_cons, ih]
          decide
      | false =>
          have heq : escapeAmps (c :: r) = c :: escapeAmps r := by
            simp [escapeAmps, hcond]
          rw [heq, noIllegal_cons, ih, h1]
          rfl

theorem noIllegal_escapeLt : ∀ l : List Char,
    noIllegal l = true → noIllegal (escapeLt l) = true
  | [], _ => rfl
  | [c], h => h
  | c1 :: c2 :: r, h => by
      rw [noIllegal_cons, Bool.and_eq_true] at h
      obtain ⟨h1, h⟩ := h
      rw [noIllegal_cons, Bool.and_eq_true] at h
      obtain ⟨h2, h3⟩ := h
      cases hcond : (c1 == '<' && jsWs c2) with
      | true =>
          have heq : escapeLt (c1 :: c2 :: r) = '&' :: 'l' :: 't' :: ';' :: c2 :: escapeLt r := by
            simp [escapeLt, hcond]
          have ih := noIllegal_escapeLt r h3
          rw [heq, noIllegal_cons, noIllegal_cons, noIllegal_cons, noIllegal_cons,
            noIllegal_cons, ih, h2]
          decide
      | false =>
          have heq : escapeLt (c1 :: c2 :: r) = c1 :: escapeLt (c2 :: r) := by
            simp [escapeLt, hcond]
          have ih := noIllegal_escapeLt (c2 :: r) (by
            rw [noIllegal_cons, h2, h3]
            rfl)
          rw [heq, noIllegal_cons, ih, h1]
          rfl

theorem noIllegal_append_gt (l : List Char) (h : noIllegal l = true) :
    noIllegal (l ++ ['>']) = true := by
  rw [noIllegal, List.all_append]
  rw [noIllegal] at h
  rw [h]
  decide

/-! ### The truncation fix never fires twice. -/

theorem isPartialClose_append_gt : ∀ s : List Char, isPartialClose (s ++ ['>']) = false
  | [] => rfl
  | [a] => by simp [isPartialClose, (by decide : (('>' : Char) == '/') = false)]
  | a :: b :: m => by
      rw [List.cons_append, List.cons_append, isPartialClose, List.all_append]
      simp [(by decide : nameChar '>' = false)]

theorem endsPartial_append_gt : ∀ v : List Char, endsPartial (v ++ ['>']) = false
  | [] => rfl
  | c :: v => by
      rw [List.cons_append, endsPartial, ← List.cons_append,
        isPartialClose_append_gt (c :: v), endsPartial_append_gt v]
      rfl

/-! ### Idempotence of the four-fix pipeline. -/

/-- After one run of the pipeline none of the four patterns can match
any more. -/
theorem fixedOf_invariants (x : List Char) :
    okAmps (fixedOf x) = true ∧ okLt (fixedOf x) = true ∧
      noIllegal (fixedOf x) = true ∧ endsPartial (fixedOf x) = false := by
  rw [fixedOf_eq, fixTruncatedTag]
  have hzA : okAmps (escapeLt (escapeAmps (stripIllegal x))) = true :=
    okAmps_escapeLt _ (okAmps_escapeAmps _)
  have hzL := okLt_escapeLt (escapeAmps (stripIllegal x))
  have hzI : noIllegal (escapeLt (escapeAmps (stripIllegal x))) = true :=
    noIllegal_escapeLt _ (noIllegal_escapeAmps _ (noIllegal_stripIllegal x))
  cases hep : endsPartial (escapeLt (escapeAmps (stripIllegal x))) with
  | false =>
      rw [if_neg Bool.false_ne_true]
      exact ⟨hzA, hzL, hzI, hep⟩
  | true =>
      rw [if_pos rfl]
      exact ⟨okAmps_append_gt _ hzA, okLt_append_gt _ hzL,
        noIllegal_append_gt _ hzI, endsPartial_append_gt _⟩

/-- When none of the four patterns matches, the pipeline is the
identity. -/
theorem fixedOf_of_invariants (y : List Char) (hA : okAmps y = true)
    (hL : okLt y = true) (hI : noIllegal y = true)
    (hEP : endsPartial y = false) : fixedOf y = y := by
  have h1 : hasIllegal y = false := by
    rw [hasIllegal_eq_not_noIllegal, hI]
    rfl
  have h2 : hasBareAmp y = false := by
    rw [hasBareAmp_eq_not_okAmps, hA]
    rfl
  have h3 : hasLtWs y = false := by
    rw [hasLtWs_eq_not_okLt, hL]
    rfl
  simp [fixedOf, h1, h2, h3, hEP]

theorem fixedOf_idem (x : List Char) : fixedOf (fixedOf x) = fixedOf x := by
  obtain ⟨hA, hL, hI, hEP⟩ := fixedOf_invariants x
  exact fixedOf_of_invariants _ hA hL hI hEP

/-! ### Positional reading of the okAmps invariant. -/

theorem okAmps_split : ∀ (u v : List Char),
    okAmps (u ++ '&' :: v) = true → entityAhead v = true
  | [], v, h => by
      rw [List.nil_append, okAmps_cons, Bool.and_eq_true] at h
      have h1 := h.1
      rw [Bool.or_eq_true] at h1
      rcases h1 with hx | hx
      · exact absurd hx (by decide)
      · exact hx
  | c :: u, v, h => by
      rw [List.cons_append, okAmps_cons, Bool.and_eq_true] at h
      exact okAmps_split u v h.2

/-! ### Counting lemmas for the preserved whitespace characters. -/

theorem count_stripIllegal (c : Char) (h : illegalChar c = false) (l : List Char) :
    List.count c (stripIllegal l) = List.count c l := by
  rw [stripIllegal]
  exact List.count_filter (by simp [h])

theorem count_escapeAmps (c : Char) (ha : (('a' : Char) == c) = false)
    (hm : (('m' : Char) == c) = false) (hp : (('p' : Char) == c) = false)
    (hs : ((';' : Char) == c) = false) :
    ∀ l : List Char, List.count c (escapeAmps l) = List.count c l
  | [] => rfl
  | d :: r => by
      have ih := count_escapeAmps c ha hm hp hs r
      cases hcond : (d == '&' && !entityAhead r) with
      | true =>
          have heq : escapeAmps (d :: r) = '&' :: 'a' :: 'm' :: 'p' :: ';' :: escapeAmps r := by
            simp [escapeAmps, hcond]
          have hcond2 := hcond
          rw [Bool.and_eq_true] at hcond2
          have hd : d = '&' := eq_of_beq hcond2.1
          subst hd
          rw [heq]
          simp [List.count_cons, ha, hm, hp, hs, ih]
      | false =>
          have heq : escapeAmps (d :: r) = d :: escapeAmps r := by
            simp [escapeAmps, hcond]
          rw [heq]
          simp [List.count_cons, ih]

theorem count_escapeLt (c : Char) (hamp : (('&' : Char) == c) = false)
    (hl : (('l' : Char) == c) = false) (ht : (('t' : Char) == c) = false)
    (hs : ((';' : Char) == c) = false) (hlt : (('<' : Char) == c) = false) :
    ∀ l : List Char, List.count c (escapeLt l) = List.count c l
  | [] => rfl
  | [_] => rfl
  | c1 :: c2 :: r => by
      cases hcond : (c1 == '<' && jsWs c2) with
      | true =>
          have heq : escapeLt (c1 :: c2 :: r) = '&' :: 'l' :: 't' :: ';' :: c2 :: escapeLt r := by
            simp [escapeLt, hcond]
          have hcond2 := hcond
          rw [Bool.and_eq_true] at hcond2
          have hc1 : c1 = '<' := eq_of_beq hcond2.1
          subst hc1
          have ih := count_escapeLt c hamp hl ht hs hlt r
          rw [heq]
          simp [List.count_cons, hamp, hl, ht, hs, hlt, ih]
      | false =>
          have heq : escapeLt (c1 :: c2 :: r) = c1 :: escapeLt (c2 :: r) := by
            simp [escapeLt, hcond]
          have ih := count_escapeLt c hamp hl ht hs hlt (c2 :: r)
          rw [heq]
          simp [List.count_cons, ih]

theorem count_fixedOf (c : Char) (hill : illegalChar c = false)
    (ha : (('a' : Char) == c) = false) (hm : (('m' : Char) == c) = false)
    (hp : (('p' : Char) == c) = false) (hs : ((';' : Char) == c) = false)
    (hamp : (('&' : Char) == c) = false) (hl : (('l' : Char) == c) = false)
    (ht : (('t' : Char) == c) = false) (hlt : (('<' : Char) == c) = false)
    (hgt : (('>' : Char) == c) = false) (x : List Char) :
    List.count c (fixedOf x) = List.count c x := by
  rw [fixedOf_eq, fixTruncatedTag]
  have hchain : List.count c (escapeLt (escapeAmps (stripIllegal x))) = List.count c x := by
    rw [count_escapeLt c hamp hl ht hs hlt, count_escapeAmps c ha hm hp hs,
      count_stripIllegal c hill]
  cases hep : endsPartial (escapeLt (escapeAmps (stripIllegal x))) with
  | false =>
      rw [if_neg Bool.false_ne_true]
      exact hchain
  | true =>
      rw [if_pos rfl, List.count_append, hchain]
      simp [List.count_cons, hgt]

/-! ### The truncated-tag condition: decomposition and stability
under the earlier fixes. -/

theorem endsPartial_extract : ∀ l : List Char, endsPartial l = true →
    ∃ u nm, l = u ++ '<' :: '/' :: nm ∧ nm ≠ [] ∧ ∀ c ∈ nm, nameChar c = true
  | [], h => by simp [endsPartial] at h
  | c :: r, h => by
      rw [endsPartial, Bool.or_eq_true] at h
      rcases h with h | h
      · rcases r with _ | ⟨b, m⟩
        · exact absurd h (by simp [isPartialClose])
        · rw [isPartialClose] at h
          simp only [Bool.and_eq_true, beq_iff_eq] at h
          obtain ⟨⟨⟨hc, hb⟩, hne⟩, hall⟩ := h
          subst hc
          subst hb
          refine ⟨[], m, rfl, ?_, ?_⟩
          · intro hm
            subst hm
            simp at hne
          · intro d hd
            exact (List.all_eq_true.mp hall) d hd
      · obtain ⟨u, nm, heq, hne, hall⟩ := endsPartial_extract r h
        exact ⟨c :: u, nm, by rw [heq, List.cons_append], hne, hall⟩

theorem endsPartial_rebuild : ∀ (v nm : List Char), nm ≠ [] →
    (∀ c ∈ nm, nameChar c = true) → endsPartial (v ++ '<' :: '/' :: nm) = true
  | [], nm, hne, hall => by
      rw [List.nil_append, endsPartial, isPartialClose]
      have h1 : nm.isEmpty = false := by
        cases nm with
        | nil => exact absurd rfl hne
        | cons a t => rfl
      have h2 : nm.all nameChar = true := List.all_eq_true.mpr hall
      simp [h1, h2]
  | c :: v, nm, hne, hall => by
      rw [List.cons_append, endsPartial, ← List.cons_append,
        endsPartial_rebuild v nm hne hall]
      simp

theorem okLt_of_no_lt : ∀ l : List Char, (∀ c ∈ l, (c == '<') = false) →
    okLt l = true
  | [], _ => rfl
  | [_], _ => rfl
  | c1 :: c2 :: r, h => by
      rw [okLt, Bool.and_eq_true]
      constructor
      · rw [bne, h c1 (List.mem_cons_self c1 (c2 :: r))]
        rfl
      · exact okLt_of_no_lt (c2 :: r) (fun d hd => h d (List.mem_cons_of_mem c1 hd))

theorem nameChar_not_illegal (c : Char) (h : nameChar c = true) :
    illegalChar c = false := by
  rw [nameChar] at h
  rw [illegalChar]
  simp only [Bool.or_eq_true, Bool.and_eq_true, beq_iff_eq, decide_eq_true_eq] at h
  simp only [Bool.or_eq_false_iff, Bool.and_eq_false_iff, beq_eq_false_iff_ne,
    ne_eq, decide_eq_false_iff_not]
  omega

/-- A suffix free of illegal characters survives the stripping fix. -/
theorem stripIllegal_append (u s : List Char) (h : ∀ c ∈ s, illegalChar c = false) :
    stripIllegal (u ++ s) = stripIllegal u ++ s := by
  rw [stripIllegal, stripIllegal, List.filter_append]
  congr 1
  rw [List.filter_eq_self]
  intro c hc
  simp [h c hc]

/-- A `&`-free suffix survives the ampersand fix up to a new prefix. -/
theorem escapeAmps_keeps_suffix : ∀ (u s : List Char),
    (∀ c ∈ s, (c == '&') = false) →
    ∃ w, escapeAmps (u ++ s) = w ++ s
  | [], s, h => ⟨[], by
      have h2 := escapeAmps_append s [] h
      rw [List.append_nil] at h2
      rw [show escapeAmps ([] : List Char) = [] from rfl, List.append_nil] at h2
      simpa using h2⟩
  | c :: u, s, h => by
      obtain ⟨w, hw⟩ := escapeAmps_keeps_suffix u s h
      cases hcond : (c == '&' && !entityAhead (u ++ s)) with
      | true =>
          refine ⟨'&' :: 'a' :: 'm' :: 'p' :: ';' :: w, ?_⟩
          rw [List.cons_append]
          have heq : escapeAmps (c :: (u ++ s)) =
              '&' :: 'a' :: 'm' :: 'p' :: ';' :: escapeAmps (u ++ s) := by
            simp [escapeAmps, hcond]
          rw [heq, hw]
          rfl
      | false =>
          refine ⟨c :: w, ?_⟩
          rw [List.cons_append]
          have heq : escapeAmps (c :: (u ++ s)) = c :: escapeAmps (u ++ s) := by
            simp [escapeAmps, hcond]
          rw [heq, hw]
          rfl

/-- A suffix starting with `<` on which the less-than fix cannot match
survives the less-than fix up to a new prefix. -/
theorem escapeLt_keeps_suffix : ∀ (u s0 : List Char), okLt ('<' :: s0) = true →
    ∃ w, escapeLt (u ++ '<' :: s0) = w ++ '<' :: s0
  | [], s0, hok => ⟨[], by
      exact escapeLt_of_okLt _ hok⟩
  | [c], s0, hok => by
      refine ⟨[c], ?_⟩
      show escapeLt (c :: '<' :: s0) = c :: '<' :: s0
      have heq : escapeLt (c :: '<' :: s0) = c :: escapeLt ('<' :: s0) := by
        simp [escapeLt, (by decide : jsWs '<' = false)]
      rw [heq, escapeLt_of_okLt _ hok]
  | c :: d :: u, s0, hok => by
      cases hcond : (c == '<' && jsWs d) with
      | true =>
          obtain ⟨w, hw⟩ := escapeLt_keeps_suffix u s0 hok
          refine ⟨'&' :: 'l' :: 't' :: ';' :: d :: w, ?_⟩
          rw [List.cons_append, List.cons_append]
          have heq : escapeLt (c :: d :: (u ++ '<' :: s0)) =
              '&' :: 'l' :: 't' :: ';' :: d :: escapeLt (u ++ '<' :: s0) := by
            simp [escapeLt, hcond]
          rw [heq, hw]
          rfl
      | false =>
          obtain ⟨w, hw⟩ := escapeLt_keeps_suffix (d :: u) s0 hok
          refine ⟨c :: w, ?_⟩
          rw [List.cons_append, List.cons_append]
          have heq : escapeLt (c :: d :: (u ++ '<' :: s0)) =
              c :: escapeLt (d :: (u ++ '<' :: s0)) := by
            simp [escapeLt, hcond]
          rw [heq, show d :: (u ++ '<' :: s0) = (d :: u) ++ '<' :: s0 from rfl, hw]
          rfl

/-- A trailing partial closing tag survives the first three fixes, so
the truncation fix fires and appends exactly one `>`. -/
theorem fixedOf_of_endsPartial (x : List Char) (h : endsPartial x = true) :
    fixedOf x = escapeLt (escapeAmps (stripIllegal x)) ++ ['>'] ∧
      endsPartial (escapeLt (escapeAmps (stripIllegal x))) = true := by
  obtain ⟨u, nm, rfl, hne, hall⟩ := endsPartial_extract x h
  have hsub : ∀ c ∈ ('<' :: '/' :: nm), illegalChar c = false := by
    intro c hc
    rcases List.mem_cons.mp hc with rfl | hc
    · decide
    · rcases List.mem_cons.mp hc with rfl | hc
      · decide
      · exact nameChar_not_illegal c (hall c hc)
  have hamp : ∀ c ∈ ('<' :: '/' :: nm), (c == '&') = false := by
    intro c hc
    rcases List.mem_cons.mp hc with rfl | hc
    · decide
    · rcases List.mem_cons.mp hc with rfl | hc
      · decide
      · exact beq_false_of_pred nameChar (hall c hc) (by decide)
  have hokclose : okLt ('<' :: '/' :: nm) = true := by
    have h1 : okLt ('/' :: nm) = true := by
      apply okLt_of_no_lt
      intro c hc
      rcases List.mem_cons.mp hc with rfl | hc
      · decide
      · exact beq_false_of_pred nameChar (hall c hc) (by decide)
    cases nm with
    | nil => rfl
    | cons a t =>
        rw [okLt, Bool.and_eq_true]
        exact ⟨by decide, h1⟩
  have hstrip := stripIllegal_append u ('<' :: '/' :: nm) hsub
  obtain ⟨w1, hw1⟩ := escapeAmps_keeps_suffix (stripIllegal u) ('<' :: '/' :: nm) hamp
  obtain ⟨w2, hw2⟩ := escapeLt_keeps_suffix w1 ('/' :: nm) hokclose
  have hz : escapeLt (escapeAmps (stripIllegal (u ++ '<' :: '/' :: nm))) =
      w2 ++ '<' :: '/' :: nm := by
    rw [hstrip, hw1, hw2]
  have hepz : endsPartial (escapeLt (escapeAmps (stripIllegal (u ++ '<' :: '/' :: nm)))) = true := by
    rw [hz]
    exact endsPartial_rebuild w2 nm hne hall
  constructor
  · rw [fixedOf_eq, fixTruncatedTag, if_pos hepz]
  · exact hepz

/-- The truncation fix either changes nothing or appends a single `>`
at the very end. -/
theorem fixTruncatedTag_cases (l : List Char) :
    fixTruncatedTag l = l ∨ fixTruncatedTag l = l ++ ['>'] := by
  rw [fixTruncatedTag]
  cases h : endsPartial l with
  | false => exact Or.inl (by rw [if_neg Bool.false_ne_true])
  | true => exact Or.inr (by rw [if_pos rfl])

/-! ### Claim theorems. -/

/-- Concrete parser oracle used for the closed examples: a parse with
no `parsererror` node. -/
def oracleOk : DomParse := fun _ => none

/-- C1 (amended): heuristicRepair replaces every `&` that is not
already the start of a recognized entity reference — `&amp;`, `&lt;`,
`&gt;`, `&apos;`, `&quot;`, a decimal numeric reference, or a
hexadecimal numeric reference, the whole reference matched
case-insensitively (the regex carries the `i` flag) — with `&amp;`,
and leaves every `&` that does start such a reference untouched; in
particular repair("A & B") gives "A &amp; B", repair("A &amp; B") is
unchanged, and repair("<a>&</a>") gives "<a>&amp;</a>". -/
theorem claim_C1 :
    (∀ (c : Char) (r : List Char), c ≠ '&' → escapeAmps (c :: r) = c :: escapeAmps r) ∧
    (∀ r : List Char, specRecognizedTail r = true →
        escapeAmps ('&' :: r) = '&' :: escapeAmps r) ∧
    (∀ r : List Char, specRecognizedTail r = false →
        escapeAmps ('&' :: r) = '&' :: 'a' :: 'm' :: 'p' :: ';' :: escapeAmps r) ∧
    (∀ l : List Char, entityAhead l = specRecognizedTail l) ∧
    (∀ P : DomParse,
      (heuristicRepair P "A & B".toList).fixedContent = "A &amp; B".toList ∧
      (heuristicRepair P "A &amp; B".toList).fixedContent = "A &amp; B".toList ∧
      (heuristicRepair P "<a>&</a>".toList).fixedContent = "<a>&amp;</a>".toList) := by
  refine ⟨?_, ?_, ?_, entityAhead_eq_spec, ?_⟩
  · intro c r hc
    exact escapeAmps_cons_ne c r (by simpa using hc)
  · intro r h
    have he : entityAhead r = true := by rw [entityAhead_eq_spec]; exact h
    simp [escapeAmps, he]
  · intro r h
    have he : entityAhead r = false := by rw [entityAhead_eq_spec]; exact h
    simp [escapeAmps, he]
  · intro P
    refine ⟨?_, ?_, ?_⟩ <;> rw [heuristicRepair_fixedContent] <;> decide

/-- Witness for C1 at concrete inputs. -/
theorem claim_C1_witness :
    escapeAmps ['x', '&'] = 'x' :: escapeAmps ['&'] ∧
    escapeAmps ('&' :: "amp; B".toList) = '&' :: escapeAmps "amp; B".toList ∧
    escapeAmps ('&' :: " B".toList) =
      '&' :: 'a' :: 'm' :: 'p' :: ';' :: escapeAmps " B".toList ∧
    (heuristicRepair oracleOk "A & B".toList).fixedContent = "A &amp; B".toList :=
  ⟨claim_C1.1 'x' ['&'] (by decide),
   claim_C1.2.1 "amp; B".toList (by decide),
   claim_C1.2.2.1 " B".toList (by decide),
   (claim_C1.2.2.2.2 oracleOk).1⟩

/-- Counterexample to C1 as frozen: the claim grants case-insensitivity
only to the hex digits, so `&AMP;` is not among its recognized entity
references and its `&` would have to become `&amp;`; the code's regex
carries the `i` flag and leaves `&AMP;` untouched. -/
theorem claim_C1_counterexample :
    claimRecognizedTailCS "AMP;".toList = false ∧
    (heuristicRepair oracleOk "&AMP;".toList).fixedContent = "&AMP;".toList ∧
    "&AMP;".toList ≠ "&amp;AMP;".toList := by
  exact ⟨by decide, by decide, by decide⟩

/-- C2 (amended): for every input string that is well-formed for the
platform parser and on which the four textual fixes make no change,
heuristicRepair returns wasModified = false, isValid = true,
errors = [], and fixedContent equal to the input. -/
theorem claim_C2 (P : DomParse) (x : List Char) (hP : P x = none)
    (hfix : fixedOf x = x) : heuristicRepair P x = ⟨x, true, [], false⟩ := by
  simp [heuristicRepair, hfix, validateXML, hP, bne_self_eq_false]

/-- Witness for C2 at a concrete well-formed input. -/
theorem claim_C2_witness :
    heuristicRepair oracleOk "<a>ok</a>".toList = ⟨"<a>ok</a>".toList, true, [], false⟩ :=
  claim_C2 oracleOk "<a>ok</a>".toList rfl (by decide)

/-- Counterexample to C2 as frozen: `<a><!-- < --></a>` is well-formed
XML (a comment may contain `<`), yet the bare-less-than fix rewrites
the `< ` inside the comment, so wasModified = true and fixedContent
differs from the input. -/
theorem claim_C2_counterexample :
    xmlWellFormed "<a><!-- < --></a>".toList = true ∧
    (heuristicRepair oracleOk "<a><!-- < --></a>".toList).wasModified = true ∧
    (heuristicRepair oracleOk "<a><!-- < --></a>".toList).fixedContent ≠
      "<a><!-- < --></a>".toList := by
  exact ⟨by decide, by decide, by decide⟩

/-- C3: heuristicRepair is idempotent on its own output: running the
four fixes a second time changes nothing further, with no oscillation
where the truncated-tag fix has appended a `>`. -/
theorem claim_C3 (P : DomParse) (x : List Char) :
    (heuristicRepair P (heuristicRepair P x).fixedContent).fixedContent =
      (heuristicRepair P x).fixedContent := by
  simp only [heuristicRepair_fixedContent]
  exact fixedOf_idem x

/-- C4: validateXML (modelled as a total function over the parser
oracle, so it cannot throw) satisfies isValid iff errors is empty;
on parse failure errors is exactly one entry — the parser's message,
or the fixed placeholder when the message is null or empty. -/
theorem claim_C4 (P : DomParse) (x : List Char) :
    ((validateXML P x).isValid = true ↔ (validateXML P x).errors = []) ∧
    (P x = none → validateXML P x = ⟨true, []⟩) ∧
    (∀ m, P x = some m → validateXML P x = ⟨false, [parseErrorText m]⟩) ∧
    parseErrorText none = unknownParseError ∧
    (∀ t : String, t.isEmpty = true → parseErrorText (some t) = unknownParseError) := by
  refine ⟨?_, ?_, ?_, rfl, ?_⟩
  · cases hP : P x with
    | none => simp [validateXML, hP]
    | some m => simp [validateXML, hP]
  · intro h
    simp [validateXML, h]
  · intro m h
    simp [validateXML, h]
  · intro t ht
    simp [parseErrorText, ht]

/-- Witness for C4 at concrete oracles. -/
theorem claim_C4_witness :
    validateXML (fun _ => some none) [] = ⟨false, [parseErrorText none]⟩ ∧
    validateXML oracleOk [] = ⟨true, []⟩ :=
  ⟨(claim_C4 (fun _ => some none) []).2.2.1 none rfl,
   (claim_C4 oracleOk []).2.1 rfl⟩

/-- Reduction of the AI path on a present, nonempty credential and a
successful network response. -/
theorem repairWithGemini_ok_eq (P : DomParse) (k : String) (hk : k.isEmpty = false)
    (t : Option String) :
    repairWithGemini P (some k) (.ok t) =
      .ok { fixedContent := cleanFences (t.getD "").toList,
            isValid := (validateXML P (cleanFences (t.getD "").toList)).isValid,
            errors := (validateXML P (cleanFences (t.getD "").toList)).errors,
            wasModified := true } := by
  simp [repairWithGemini, hk]

/-- C5: the heuristic result has wasModified = true iff fixedContent
differs from the input; every RepairResult returned by the AI path has
wasModified = true. -/
theorem claim_C5 :
    (∀ (P : DomParse) (x : List Char),
      (heuristicRepair P x).wasModified = true ↔
        (heuristicRepair P x).fixedContent ≠ x) ∧
    (∀ (P : DomParse) (key : Option String) (resp : Except String (Option String))
      (r : RepairResult), repairWithGemini P key resp = .ok r → r.wasModified = true) := by
  constructor
  · intro P x
    simp [heuristicRepair]
  · intro P key resp r h
    rcases key with _ | k
    · simp [repairWithGemini] at h
    · cases hk : k.isEmpty with
      | true => simp [repairWithGemini, hk] at h
      | false =>
          rcases resp with e | t
          · simp [repairWithGemini, hk] at h
          · rw [repairWithGemini_ok_eq P k hk t] at h
            injection h with h2
            rw [← h2]

/-- Witness for C5 at concrete inputs. -/
theorem claim_C5_witness :
    ((heuristicRepair oracleOk ['&']).wasModified = true ↔
      (heuristicRepair oracleOk ['&']).fixedContent ≠ ['&']) ∧
    RepairResult.wasModified ⟨"<a/>".toList, true, [], true⟩ = true :=
  ⟨claim_C5.1 oracleOk ['&'],
   claim_C5.2 oracleOk (some "k") (.ok (some "<a/>"))
     ⟨"<a/>".toList, true, [], true⟩ (by rfl)⟩

/-- C6: heuristicRepair removes every character in the illegal control
ranges from fixedContent and preserves Tab, LF and CR (their occurrence
counts are unchanged); an input containing 0x01 and 0x0A yields output
with 0x01 removed and 0x0A preserved. -/
theorem claim_C6 (P : DomParse) (x : List Char) :
    (∀ c ∈ (heuristicRepair P x).fixedContent, illegalChar c = false) ∧
    List.count '\x09' (heuristicRepair P x).fixedContent = List.count '\x09' x ∧
    List.count '\x0A' (heuristicRepair P x).fixedContent = List.count '\x0A' x ∧
    List.count '\x0D' (heuristicRepair P x).fixedContent = List.count '\x0D' x ∧
    (heuristicRepair P ['a', '\x01', 'b', '\x0A']).fixedContent = ['a', 'b', '\x0A'] := by
  simp only [heuristicRepair_fixedContent]
  refine ⟨?_, ?_, ?_, ?_, by decide⟩
  · intro c hc
    have hI := (fixedOf_invariants x).2.2.1
    rw [noIllegal, List.all_eq_true] at hI
    have := hI c hc
    simpa using this
  · exact count_fixedOf '\x09' (by decide) (by decide) (by decide) (by decide)
      (by decide) (by decide) (by decide) (by decide) (by decide) (by decide) x
  · exact count_fixedOf '\x0A' (by decide) (by decide) (by decide) (by decide)
      (by decide) (by decide) (by decide) (by decide) (by decide) (by decide) x
  · exact count_fixedOf '\x0D' (by decide) (by decide) (by decide) (by decide)
      (by decide) (by decide) (by decide) (by decide) (by decide) (by decide) x

/-- Witness for C6 at a concrete input. -/
theorem claim_C6_witness :
    illegalChar 'a' = false ∧
    List.count '\x0A' (heuristicRepair oracleOk ['\x01', 'a', '\x0A']).fixedContent =
      List.count '\x0A' ['\x01', 'a', '\x0A'] :=
  ⟨(claim_C6 oracleOk ['\x01', 'a', '\x0A']).1 'a' (by decide),
   (claim_C6 oracleOk ['\x01', 'a', '\x0A']).2.2.1⟩

/-- C7: heuristicRepair replaces every `<` immediately followed by a
whitespace character with `&lt;` followed by that same whitespace
character, and leaves `<` followed by non-whitespace unchanged;
"5 < 10" becomes "5 &lt; 10" and "<trans-unit>" is unchanged. -/
theorem claim_C7 :
    (∀ (c2 : Char) (r : List Char), jsWs c2 = true →
        escapeLt ('<' :: c2 :: r) = '&' :: 'l' :: 't' :: ';' :: c2 :: escapeLt r) ∧
    (∀ (c2 : Char) (r : List Char), jsWs c2 = false →
        escapeLt ('<' :: c2 :: r) = '<' :: escapeLt (c2 :: r)) ∧
    (∀ (c1 c2 : Char) (r : List Char), c1 ≠ '<' →
        escapeLt (c1 :: c2 :: r) = c1 :: escapeLt (c2 :: r)) ∧
    escapeLt ['<'] = ['<'] ∧
    (∀ P : DomParse,
      (heuristicRepair P "5 < 10".toList).fixedContent = "5 &lt; 10".toList ∧
      (heuristicRepair P "<trans-unit>".toList).fixedContent = "<trans-unit>".toList) := by
  refine ⟨?_, ?_, ?_, rfl, ?_⟩
  · intro c2 r h
    simp [escapeLt, h]
  · intro c2 r h
    simp [escapeLt, h]
  · intro c1 c2 r h
    simp [escapeLt, h]
  · intro P
    refine ⟨?_, ?_⟩ <;> rw [heuristicRepair_fixedContent] <;> decide

/-- Witness for C7 at concrete inputs. -/
theorem claim_C7_witness :
    escapeLt ('<' :: ' ' :: []) = '&' :: 'l' :: 't' :: ';' :: ' ' :: escapeLt [] ∧
    escapeLt ('<' :: 'a' :: []) = '<' :: escapeLt ['a'] ∧
    escapeLt ('x' :: '<' :: []) = 'x' :: escapeLt ['<'] ∧
    (heuristicRepair oracleOk "5 < 10".toList).fixedContent = "5 &lt; 10".toList :=
  ⟨claim_C7.1 ' ' [] (by decide),
   claim_C7.2.1 'a' [] (by decide),
   claim_C7.2.2.1 'x' '<' [] (by decide),
   (claim_C7.2.2.2.2 oracleOk).1⟩

/-- C8: when the input ends with a partial closing tag `</name`, the
pipeline appends the missing `>` at the very end (after the earlier
fixes), and the truncation fix applies nowhere else: it is either the
identity or appends exactly one `>` at the end; an input ending in
"</trans-unit" yields output ending in "</trans-unit>". -/
theorem claim_C8 :
    (∀ (P : DomParse) (x : List Char), endsPartial x = true →
        (heuristicRepair P x).fixedContent =
          escapeLt (escapeAmps (stripIllegal x)) ++ ['>']) ∧
    (∀ l : List Char, endsPartial l = true → fixTruncatedTag l = l ++ ['>']) ∧
    (∀ l : List Char, endsPartial l = false → fixTruncatedTag l = l) ∧
    (∀ l : List Char, fixTruncatedTag l = l ∨ fixTruncatedTag l = l ++ ['>']) ∧
    List.isSuffixOf "</trans-unit>".toList
      (heuristicRepair oracleOk "<x></trans-unit".toList).fixedContent = true := by
  refine ⟨?_, ?_, fixTruncatedTag_of_not_ends, fixTruncatedTag_cases, by decide⟩
  · intro P x h
    rw [heuristicRepair_fixedContent]
    exact (fixedOf_of_endsPartial x h).1
  · intro l h
    rw [fixTruncatedTag, if_pos h]

/-- Witness for C8 at a concrete truncated input. -/
theorem claim_C8_witness :
    (heuristicRepair oracleOk "</a".toList).fixedContent =
      escapeLt (escapeAmps (stripIllegal "</a".toList)) ++ ['>'] ∧
    fixTruncatedTag "</a".toList = "</a".toList ++ ['>'] ∧
    fixTruncatedTag "<a>".toList = "<a>".toList :=
  ⟨claim_C8.1 oracleOk "</a".toList (by decide),
   claim_C8.2.1 "</a".toList (by decide),
   claim_C8.2.2.1 "<a>".toList (by decide)⟩

/-- C9: repairWithGemini fails with an error when the API credential
is absent, and every RepairResult it returns has wasModified = true
and isValid/errors equal to validateXML applied to the returned
fixedContent. -/
theorem claim_C9 :
    (∀ (P : DomParse) (resp : Except String (Option String)),
      repairWithGemini P none resp = .error apiKeyMissingMsg) ∧
    (∀ (P : DomParse) (key : Option String) (resp : Except String (Option String))
      (r : RepairResult), repairWithGemini P key resp = .ok r →
        r.wasModified = true ∧
        r.isValid = (validateXML P r.fixedContent).isValid ∧
        r.errors = (validateXML P r.fixedContent).errors) := by
  constructor
  · intro P resp
    rfl
  · intro P key resp r h
    rcases key with _ | k
    · simp [repairWithGemini] at h
    · cases hk : k.isEmpty with
      | true => simp [repairWithGemini, hk] at h
      | false =>
          rcases resp with e | t
          · simp [repairWithGemini, hk] at h
          · rw [repairWithGemini_ok_eq P k hk t] at h
            injection h with h2
            rw [← h2]
            exact ⟨rfl, rfl, rfl⟩

/-- Witness for C9 at concrete inputs. -/
theorem claim_C9_witness :
    repairWithGemini oracleOk none (.ok (some "<a/>")) = .error apiKeyMissingMsg ∧
    (RepairResult.wasModified ⟨"<a/>".toList, true, [], true⟩ = true ∧
      RepairResult.isValid ⟨"<a/>".toList, true, [], true⟩ =
        (validateXML oracleOk "<a/>".toList).isValid ∧
      RepairResult.errors ⟨"<a/>".toList, true, [], true⟩ =
        (validateXML oracleOk "<a/>".toList).errors) :=
  ⟨claim_C9.1 oracleOk (.ok (some "<a/>")),
   claim_C9.2 oracleOk (some "k") (.ok (some "<a/>"))
     ⟨"<a/>".toList, true, [], true⟩ (by rfl)⟩

/-- C10: every `&` in heuristicRepair's fixedContent is immediately
followed by one of the recognized entity tails (matched
case-insensitively): no unescaped ampersand remains in the output. -/
theorem claim_C10 (P : DomParse) (x u v : List Char)
    (h : (heuristicRepair P x).fixedContent = u ++ '&' :: v) :
    specRecognizedTail v = true := by
  rw [heuristicRepair_fixedContent] at h
  have hA := (fixedOf_invariants x).1
  rw [h] at hA
  rw [← entityAhead_eq_spec]
  exact okAmps_split u v hA

/-- Witness for C10 at a concrete input. -/
theorem claim_C10_witness : specRecognizedTail "amp; B".toList = true :=
  claim_C10 oracleOk "A & B".toList "A ".toList "amp; B".toList (by decide)

end XliffFixer
